import Mathlib

/-!
Shallow embedding of the `mixed-radix-counter` crate (`src/lib.rs`) and
verification of its specification.

The counter stores a list of digit values (`elements`, most significant first)
and a parallel list of exclusive upper bounds (`limits`).  The Rust code is
generic over an unsigned integer type `T`; the embedding uses `Nat` for the
exact arithmetic the operations perform (`increment`, `add` and the
constructors never rely on wrap-around), and separate `…W` variants that
reduce every machine addition modulo `2 ^ w` to model a `w`-bit unsigned type
with wrapping arithmetic.

The Rust loops in `increment` and `add` run over indices `E-1, …, 0`, i.e.
from the least significant digit upwards.  The embedding therefore works on
the reversed list of `(element, limit)` pairs (`zrev`): the head of that list
is the digit the loop visits first.
-/

namespace MixedRadix

/-- The only error of the crate: a proposed digit is not below its limit. -/
inductive InvalidValues where
  | mk
  deriving DecidableEq, Repr

/-- `MixedRadixCounter` from `src/lib.rs`: parallel lists of current digit
values and exclusive per-digit limits, most significant digit first.  The
Rust type fixes a common length `E` at compile time; here the equality of
lengths is carried by the `Valid` predicate. -/
structure MixedRadixCounter where
  elements : List Nat
  limits : List Nat
  deriving DecidableEq, Repr

/-- The reversed list of `(element, limit)` pairs: the order in which the
`for i in (0..E).rev()` loops of the source visit the digits. -/
def zrev (c : MixedRadixCounter) : List (Nat × Nat) :=
  (c.elements.zip c.limits).reverse

/-- Body of `increment` (`src/lib.rs` lines 30-41), acting on the reversed
pair list.  `sum = elements[i] + 1`; if `sum < limits[i]` the digit is set to
`sum` and the loop returns `None`; otherwise the digit is set to
`T::default()` (= 0) and the loop continues; an exhausted loop returns
`Some(T::one())`. -/
def incRev : List (Nat × Nat) → List (Nat × Nat) × Option Nat
  | [] => ([], some 1)
  | (e, l) :: rest =>
    if e + 1 < l then
      ((e + 1, l) :: rest, none)
    else
      ((0, l) :: (incRev rest).1, (incRev rest).2)

/-- `increment` of the source: run the loop over the reversed digit list and
re-assemble the counter (the limits are never written). -/
def increment (c : MixedRadixCounter) : MixedRadixCounter × Option Nat :=
  (⟨((incRev (zrev c)).1.map Prod.fst).reverse, c.limits⟩, (incRev (zrev c)).2)

/-- Body of `add` (`src/lib.rs` lines 43-69), acting on the reversed pair
list.  `sum = elements[i] + carry`; if `sum < limit` the digit becomes `sum`
and the function returns `None`; otherwise the digit becomes `sum % limit`,
the carry becomes `sum / limit`, and if `i == 0 && carry != 0` the function
returns `Some(carry)`; a completed loop returns `None`. -/
def addRev : Nat → List (Nat × Nat) → List (Nat × Nat) × Option Nat
  | _, [] => ([], none)
  | carry, (e, l) :: rest =>
    if e + carry < l then
      ((e + carry, l) :: rest, none)
    else
      if rest = [] ∧ (e + carry) / l ≠ 0 then
        (((e + carry) % l, l) :: rest, some ((e + carry) / l))
      else
        (((e + carry) % l, l) :: (addRev ((e + carry) / l) rest).1,
          (addRev ((e + carry) / l) rest).2)

/-- `add` of the source. -/
def add (c : MixedRadixCounter) (value : Nat) : MixedRadixCounter × Option Nat :=
  (⟨((addRev value (zrev c)).1.map Prod.fst).reverse, c.limits⟩,
    (addRev value (zrev c)).2)

/-- The `try_for_each` validation of `try_from_limits_and_elements`
(`src/lib.rs` lines 96-103): fail on the first pair with
`element >= limit`. -/
def validate : List (Nat × Nat) → Except InvalidValues Unit
  | [] => .ok ()
  | (element, limit) :: rest =>
    if limit ≤ element then .error .mk else validate rest

/-- `try_from_limits_and_elements` (`src/lib.rs` lines 91-105). -/
def try_from_limits_and_elements (limits elements : List Nat) :
    Except InvalidValues MixedRadixCounter :=
  match validate (elements.zip limits) with
  | .error e => .error e
  | .ok _ => .ok ⟨elements, limits⟩

/-- `try_from_limits` (`src/lib.rs` lines 87-89): all elements default to 0. -/
def try_from_limits (limits : List Nat) : Except InvalidValues MixedRadixCounter :=
  try_from_limits_and_elements limits (List.replicate limits.length 0)

/-- `increment` loop body over a `w`-bit unsigned type with wrap-around
arithmetic: the machine addition `elements[i] + 1` is reduced modulo
`2 ^ w`.  (All other operations of the loop body cannot overflow.) -/
def incRevW (w : Nat) : List (Nat × Nat) → List (Nat × Nat) × Option Nat
  | [] => ([], some 1)
  | (e, l) :: rest =>
    if (e + 1) % 2 ^ w < l then
      (((e + 1) % 2 ^ w, l) :: rest, none)
    else
      ((0, l) :: (incRevW w rest).1, (incRevW w rest).2)

/-- `increment` over a `w`-bit unsigned type with wrapping addition. -/
def incrementW (w : Nat) (c : MixedRadixCounter) : MixedRadixCounter × Option Nat :=
  (⟨((incRevW w (zrev c)).1.map Prod.fst).reverse, c.limits⟩,
    (incRevW w (zrev c)).2)

/-- `add` loop body over a `w`-bit unsigned type with wrap-around
arithmetic: the machine addition `elements[i] + carry` is reduced modulo
`2 ^ w` (the `%` and `/` of the loop body cannot overflow). -/
def addRevW (w : Nat) : Nat → List (Nat × Nat) → List (Nat × Nat) × Option Nat
  | _, [] => ([], none)
  | carry, (e, l) :: rest =>
    if (e + carry) % 2 ^ w < l then
      (((e + carry) % 2 ^ w, l) :: rest, none)
    else
      if rest = [] ∧ (e + carry) % 2 ^ w / l ≠ 0 then
        (((e + carry) % 2 ^ w % l, l) :: rest, some ((e + carry) % 2 ^ w / l))
      else
        (((e + carry) % 2 ^ w % l, l) :: (addRevW w ((e + carry) % 2 ^ w / l) rest).1,
          (addRevW w ((e + carry) % 2 ^ w / l) rest).2)

/-- `add` over a `w`-bit unsigned type with wrapping addition. -/
def addW (w : Nat) (c : MixedRadixCounter) (value : Nat) :
    MixedRadixCounter × Option Nat :=
  (⟨((addRevW w value (zrev c)).1.map Prod.fst).reverse, c.limits⟩,
    (addRevW w value (zrev c)).2)

/-- Elementwise lexicographic comparison of two digit lists, as the derived
`Ord` of Rust's `[T; E]` performs it (for two arrays the lengths coincide;
the mismatching cases follow slice comparison, shorter prefix first). -/
def cmpList : List Nat → List Nat → Ordering
  | [], [] => .eq
  | [], _ :: _ => .lt
  | _ :: _, [] => .gt
  | a :: as, b :: bs =>
    match compare a b with
    | .eq => cmpList as bs
    | o => o

/-- The derived `Ord` of `MixedRadixCounter` (`#[derive(PartialOrd, Ord)]` on
the struct): compare the `elements` field first, then the `limits` field. -/
def counterCompare (c d : MixedRadixCounter) : Ordering :=
  match cmpList c.elements d.elements with
  | .eq => cmpList c.limits d.limits
  | o => o

/-- Numeric value of a least-significant-first list of `(digit, limit)`
pairs. -/
def valueR : List (Nat × Nat) → Nat
  | [] => 0
  | (e, l) :: rest => e + l * valueR rest

/-- Product of the limits of a least-significant-first pair list. -/
def prodR : List (Nat × Nat) → Nat
  | [] => 1
  | (_, l) :: rest => l * prodR rest

/-- Numeric value currently represented by a counter (digits read most
significant first, combined by the mixed radix). -/
def cValue (c : MixedRadixCounter) : Nat := valueR (zrev c)

/-- Every digit of the pair list is strictly below its limit. -/
def PairsValid (zl : List (Nat × Nat)) : Prop := ∀ p ∈ zl, p.1 < p.2

/-- The counter invariant: parallel lists of one common length, and every
digit strictly below its limit. -/
def Valid (c : MixedRadixCounter) : Prop :=
  c.elements.length = c.limits.length ∧
  ∀ i, (h1 : i < c.elements.length) → (h2 : i < c.limits.length) →
    c.elements[i] < c.limits[i]

/-- One mutating call on the counter: `increment()` or `add(v)`. -/
inductive Op where
  | inc
  | addv (v : Nat)

/-- Apply one mutating call, keeping the updated counter state. -/
def applyOp : Op → MixedRadixCounter → MixedRadixCounter
  | .inc, c => (increment c).1
  | .addv v, c => (add c v).1

/-- Apply a finite sequence of mutating calls in order. -/
def applyOps : List Op → MixedRadixCounter → MixedRadixCounter
  | [], c => c
  | op :: rest, c => applyOps rest (applyOp op c)

/-- Numeric reading of an optional overflow report. -/
def ovNat : Option Nat → Nat
  | none => 0
  | some k => k

/-- Call `increment` `n` times; return the final state and the total
overflow signalled across the calls. -/
def iterIncOv : Nat → MixedRadixCounter → MixedRadixCounter × Nat
  | 0, c => (c, 0)
  | n + 1, c =>
    ((iterIncOv n (increment c).1).1,
      ovNat (increment c).2 + (iterIncOv n (increment c).1).2)

instance instPairsValidDec (zl : List (Nat × Nat)) : Decidable (PairsValid zl) :=
  List.decidableBAll _ zl

theorem validate_ok_iff (zl : List (Nat × Nat)) :
    validate zl = .ok () ↔ PairsValid zl := by
  induction zl with
  | nil => simp [validate, PairsValid]
  | cons p rest ih =>
    obtain ⟨e, l⟩ := p
    simp only [validate, PairsValid, List.forall_mem_cons]
    by_cases h : l ≤ e
    · simp only [if_pos h]
      constructor
      · intro hc; exact absurd hc (by simp)
      · intro hc; exact absurd hc.1 (by omega)
    · simp only [if_neg h]
      rw [ih]
      unfold PairsValid
      constructor
      · intro hr; exact ⟨by omega, hr⟩
      · intro hr; exact hr.2

theorem validate_total (zl : List (Nat × Nat)) :
    validate zl = .ok () ∨ validate zl = .error .mk := by
  induction zl with
  | nil => left; rfl
  | cons p rest ih =>
    obtain ⟨e, l⟩ := p
    by_cases h : l ≤ e
    · right; simp [validate, h]
    · simpa [validate, h] using ih

theorem pairsValid_zip_iff (es ls : List Nat) :
    PairsValid (es.zip ls) ↔
      ∀ i, (h1 : i < es.length) → (h2 : i < ls.length) → es[i] < ls[i] := by
  induction es generalizing ls with
  | nil =>
    simp only [List.zip_nil_left, PairsValid, List.not_mem_nil, List.length_nil]
    constructor
    · intro _ i h1 _; exact absurd h1 (by omega)
    · intro _ p hp; exact absurd hp (by simp)
  | cons a as ih =>
    cases ls with
    | nil =>
      simp only [List.zip_nil_right, PairsValid, List.not_mem_nil, List.length_nil]
      constructor
      · intro _ i _ h2; exact absurd h2 (by omega)
      · intro _ p hp; exact absurd hp (by simp)
    | cons b bs =>
      simp only [List.zip_cons_cons, PairsValid, List.forall_mem_cons]
      constructor
      · rintro ⟨hab, hrest⟩ i h1 h2
        cases i with
        | zero => simpa using hab
        | succ j =>
          have := (ih bs).mp hrest j (by simpa using h1) (by simpa using h2)
          simpa using this
      · intro h
        refine ⟨h 0 (by simp) (by simp), (ih bs).mpr ?_⟩
        intro j h1 h2
        have := h (j + 1) (by simpa using h1) (by simpa using h2)
        simpa using this

theorem pairsValid_reverse_iff (zl : List (Nat × Nat)) :
    PairsValid zl.reverse ↔ PairsValid zl := by
  simp [PairsValid]

theorem valid_iff (c : MixedRadixCounter) :
    Valid c ↔ c.elements.length = c.limits.length ∧ PairsValid (zrev c) := by
  unfold Valid zrev
  rw [pairsValid_reverse_iff, pairsValid_zip_iff]

theorem valid_mk (es ls : List Nat) (hlen : es.length = ls.length)
    (h : PairsValid (es.zip ls)) : Valid ⟨es, ls⟩ :=
  (valid_iff ⟨es, ls⟩).mpr ⟨hlen, (pairsValid_reverse_iff _).mpr h⟩

theorem tfle_ok_iff (limits elements : List Nat) (c : MixedRadixCounter) :
    try_from_limits_and_elements limits elements = .ok c ↔
      PairsValid (elements.zip limits) ∧ c = ⟨elements, limits⟩ := by
  unfold try_from_limits_and_elements
  rcases validate_total (elements.zip limits) with h | h
  · rw [h]
    simp only [Except.ok.injEq]
    rw [← validate_ok_iff] at *
    constructor
    · intro hc; exact ⟨h, hc.symm⟩
    · intro hc; exact hc.2.symm
  · rw [h]
    simp only [reduceCtorEq, false_iff, not_and]
    intro hv
    rw [← validate_ok_iff] at hv
    rw [h] at hv
    exact absurd hv (by simp)

theorem tfle_error_iff (limits elements : List Nat) :
    try_from_limits_and_elements limits elements = .error .mk ↔
      ¬ PairsValid (elements.zip limits) := by
  unfold try_from_limits_and_elements
  rcases validate_total (elements.zip limits) with h | h
  · rw [h]
    simp only [reduceCtorEq, false_iff, not_not]
    exact (validate_ok_iff _).mp h
  · rw [h]
    simp only [true_iff]
    intro hv
    rw [← validate_ok_iff, h] at hv
    exact absurd hv (by simp)

/-- Claim C2: `try_from_limits_and_elements(limits, elements)` on arrays of a
common length returns `Err(InvalidValues)` iff some index `i` has
`elements[i] >= limits[i]`; when it succeeds the resulting counter carries
exactly the given elements and limits, and validation is all-or-nothing (a
counter exists only in the success case). -/
theorem c2_construction_validation (limits elements : List Nat)
    (_hlen : elements.length = limits.length) :
    (try_from_limits_and_elements limits elements = .error .mk ↔
      ∃ i, ∃ h1 : i < elements.length, ∃ h2 : i < limits.length,
        limits[i] ≤ elements[i]) ∧
    (∀ c, try_from_limits_and_elements limits elements = .ok c →
      c.elements = elements ∧ c.limits = limits) ∧
    ((∀ i, (h1 : i < elements.length) → (h2 : i < limits.length) →
        elements[i] < limits[i]) →
      try_from_limits_and_elements limits elements = .ok ⟨elements, limits⟩) := by
  refine ⟨?_, ?_, ?_⟩
  · rw [tfle_error_iff, pairsValid_zip_iff]
    constructor
    · intro h
      by_contra hc
      push_neg at hc
      exact h fun i h1 h2 => by
        have := hc i h1 h2
        omega
    · rintro ⟨i, h1, h2, hle⟩ h
      exact absurd (h i h1 h2) (by omega)
  · intro c hc
    have := (tfle_ok_iff limits elements c).mp hc
    rw [this.2]
    exact ⟨rfl, rfl⟩
  · intro h
    rw [tfle_ok_iff]
    exact ⟨(pairsValid_zip_iff _ _).mpr h, rfl⟩

/-- Witness for C2 at concrete inputs: limits `[2, 3]` with elements `[1, 5]`
are rejected (index 1 violates the bound), and with elements `[1, 2]` the
construction succeeds with exactly those fields. -/
theorem c2_construction_validation_witness :
    try_from_limits_and_elements [2, 3] [1, 5] = .error .mk ∧
    try_from_limits_and_elements [2, 3] [1, 2] = .ok ⟨[1, 2], [2, 3]⟩ := by
  constructor
  · exact (c2_construction_validation [2, 3] [1, 5] rfl).1.mpr
      ⟨1, by decide, by decide, by decide⟩
  · exact (c2_construction_validation [2, 3] [1, 2] rfl).2.2
      fun i h1 h2 => by
        have h1x : i < 2 := by simpa using h1
        interval_cases i <;> simp

theorem incRev_stop (wrap rest : List (Nat × Nat)) (e l : Nat)
    (hw : ∀ p ∈ wrap, p.2 ≤ p.1 + 1) (he : e + 1 < l) :
    incRev (wrap ++ (e, l) :: rest) =
      (wrap.map (fun p => (0, p.2)) ++ (e + 1, l) :: rest, none) := by
  induction wrap with
  | nil => simp [incRev, he]
  | cons p ps ih =>
    obtain ⟨a, b⟩ := p
    have hab : b ≤ a + 1 := hw (a, b) (by simp)
    have hrec := ih fun q hq => hw q (by simp [hq])
    simp only [List.cons_append, incRev, if_neg (by omega : ¬ a + 1 < b),
      List.append_eq]
    rw [hrec]
    simp

theorem incRev_allwrap (zl : List (Nat × Nat))
    (hw : ∀ p ∈ zl, p.2 ≤ p.1 + 1) :
    incRev zl = (zl.map (fun p => (0, p.2)), some 1) := by
  induction zl with
  | nil => simp [incRev]
  | cons p ps ih =>
    obtain ⟨a, b⟩ := p
    have hab : b ≤ a + 1 := hw (a, b) (by simp)
    have hrec := ih fun q hq => hw q (by simp [hq])
    simp only [incRev, if_neg (by omega : ¬ a + 1 < b)]
    rw [hrec]
    simp

/-- Claim C3: `increment` scans from the last index upwards.  First conjunct:
if every digit after position `i` wraps (`elements[j] + 1 >= limits[j]`) and
`elements[i] + 1 < limits[i]`, the digit at `i` becomes `elements[i] + 1`,
the digits after it become zero, the digits before it are untouched, and the
call returns `None`.  Second conjunct: if every digit wraps the final state
is all-zero and the call returns `Some(1)`. -/
theorem c3_increment_scan :
    (∀ front e back lf l lb, front.length = lf.length → back.length = lb.length →
      e + 1 < l → (∀ p ∈ back.zip lb, p.2 ≤ p.1 + 1) →
      increment ⟨front ++ e :: back, lf ++ l :: lb⟩ =
        (⟨front ++ (e + 1) :: List.replicate back.length 0, lf ++ l :: lb⟩, none)) ∧
    (∀ es ls : List Nat, es.length = ls.length →
      (∀ p ∈ es.zip ls, p.2 ≤ p.1 + 1) →
      increment ⟨es, ls⟩ = (⟨List.replicate es.length 0, ls⟩, some 1)) := by
  constructor
  · intro front e back lf l lb h1 h2 he hw
    have hzip : (front ++ e :: back).zip (lf ++ l :: lb) =
        (front.zip lf) ++ (e, l) :: (back.zip lb) := by
      rw [List.zip_append h1, List.zip_cons_cons]
    have hrev : zrev ⟨front ++ e :: back, lf ++ l :: lb⟩ =
        (back.zip lb).reverse ++ (e, l) :: (front.zip lf).reverse := by
      unfold zrev
      simp only [hzip, List.reverse_append, List.reverse_cons, List.append_assoc,
        List.cons_append, List.nil_append]
    have hw2 : ∀ p ∈ (back.zip lb).reverse, p.2 ≤ p.1 + 1 := by
      intro p hp
      exact hw p (List.mem_reverse.mp hp)
    have hlen : (back.zip lb).length = back.length := by
      rw [List.length_zip, h2, Nat.min_self]
    unfold increment
    rw [hrev, incRev_stop _ _ _ _ hw2 he]
    simp only [List.map_append, List.map_cons, List.map_map]
    have hfst : ((front.zip lf).reverse.map Prod.fst) = front.reverse := by
      rw [List.map_reverse, List.map_fst_zip front lf (le_of_eq h1)]
    have hzero : ((back.zip lb).reverse.map (Prod.fst ∘ fun p => (0, p.2))) =
        List.replicate back.length 0 := by
      have : (Prod.fst ∘ fun p : Nat × Nat => ((0 : Nat), p.2)) =
          Function.const (Nat × Nat) 0 := rfl
      rw [this, List.map_const, List.length_reverse, hlen]
    rw [hfst, hzero]
    simp [List.reverse_append]
  · intro es ls hlen hw
    have hw2 : ∀ p ∈ (es.zip ls).reverse, p.2 ≤ p.1 + 1 := by
      intro p hp
      exact hw p (List.mem_reverse.mp hp)
    unfold increment zrev
    rw [incRev_allwrap _ hw2]
    have hzl : (es.zip ls).length = es.length := by
      rw [List.length_zip, hlen, Nat.min_self]
    have : ((es.zip ls).reverse.map (fun p : Nat × Nat => ((0 : Nat), p.2))).map
        Prod.fst = List.replicate es.length 0 := by
      rw [List.map_map]
      have hc : (Prod.fst ∘ fun p : Nat × Nat => ((0 : Nat), p.2)) =
          Function.const (Nat × Nat) 0 := rfl
      rw [hc, List.map_const, List.length_reverse, hzl]
    rw [this]
    simp

/-- Witness for C3 at concrete inputs: with limits `[5, 3, 3]` and digits
`[0, 1, 2]` the last digit wraps and the middle digit absorbs the carry; with
limits `[2, 3]` and digits `[1, 2]` every digit wraps. -/
theorem c3_increment_scan_witness :
    increment ⟨[0, 1, 2], [5, 3, 3]⟩ = (⟨[0, 2, 0], [5, 3, 3]⟩, none) ∧
    increment ⟨[1, 2], [2, 3]⟩ = (⟨[0, 0], [2, 3]⟩, some 1) := by
  constructor
  · exact c3_increment_scan.1 [0] 1 [2] [5] 3 [3] rfl rfl (by omega) (by decide)
  · exact c3_increment_scan.2 [1, 2] [2, 3] rfl (by decide)

theorem add_mul_lt_mul (a l b m : Nat) (ha : a < l) (hb : b < m) :
    a + l * b < l * m := by
  have h1 : l * (b + 1) = l * b + l := by ring
  have h2 : l * (b + 1) ≤ l * m := Nat.mul_le_mul_left l (by omega)
  omega

theorem lt_mul_iff_of_lt (a l b m : Nat) (ha : a < l) :
    a + l * b < l * m ↔ b < m := by
  constructor
  · intro h
    by_contra hc
    push_neg at hc
    have : l * m ≤ l * b := Nat.mul_le_mul_left l hc
    omega
  · exact add_mul_lt_mul a l b m ha

theorem mod_mul_decomp (a l b m : Nat) (ha : a < l) :
    (a + l * b) % (l * m) = a + l * (b % m) := by
  rcases Nat.eq_zero_or_pos m with hm | hm
  · subst hm
    simp
  · have hlt : a + l * (b % m) < l * m :=
      add_mul_lt_mul a l (b % m) m ha (Nat.mod_lt b hm)
    have key : a + l * b = a + l * (b % m) + l * m * (b / m) := by
      have hdm : m * (b / m) + b % m = b := Nat.div_add_mod b m
      have hexp : l * b = l * (b % m) + l * m * (b / m) := by
        calc l * b = l * (m * (b / m) + b % m) := by rw [hdm]
          _ = l * (b % m) + l * m * (b / m) := by ring
      omega
    rw [key, Nat.add_mul_mod_self_left, Nat.mod_eq_of_lt hlt]

theorem div_mul_decomp (a l b m : Nat) (ha : a < l) :
    (a + l * b) / (l * m) = b / m := by
  rcases Nat.eq_zero_or_pos m with hm | hm
  · subst hm
    simp
  · have hlpos : 0 < l := by omega
    have hlt : a + l * (b % m) < l * m :=
      add_mul_lt_mul a l (b % m) m ha (Nat.mod_lt b hm)
    have key : a + l * b = a + l * (b % m) + l * m * (b / m) := by
      have hdm : m * (b / m) + b % m = b := Nat.div_add_mod b m
      have hexp : l * b = l * (b % m) + l * m * (b / m) := by
        calc l * b = l * (m * (b / m) + b % m) := by rw [hdm]
          _ = l * (b % m) + l * m * (b / m) := by ring
      omega
    rw [key, Nat.add_mul_div_left _ _ (Nat.mul_pos hlpos hm),
      Nat.div_eq_of_lt hlt, Nat.zero_add]

theorem prodR_pos (zl : List (Nat × Nat)) (hv : PairsValid zl) : 0 < prodR zl := by
  induction zl with
  | nil => simp [prodR]
  | cons p rest ih =>
    obtain ⟨e, l⟩ := p
    have hel : e < l := hv (e, l) (by simp)
    have := ih fun q hq => hv q (by simp [hq])
    simpa [prodR] using Nat.mul_pos (by omega) this

theorem valueR_lt_prodR (zl : List (Nat × Nat)) (hv : PairsValid zl) :
    valueR zl < prodR zl := by
  induction zl with
  | nil => simp [valueR, prodR]
  | cons p rest ih =>
    obtain ⟨e, l⟩ := p
    have hel : e < l := hv (e, l) (by simp)
    have hrest := ih fun q hq => hv q (by simp [hq])
    simpa [valueR, prodR] using add_mul_lt_mul e l _ _ hel hrest

theorem addRev_spec (zl : List (Nat × Nat)) (carry : Nat) (hv : PairsValid zl) :
    (addRev carry zl).1.map Prod.snd = zl.map Prod.snd ∧
    PairsValid (addRev carry zl).1 ∧
    valueR (addRev carry zl).1 = (valueR zl + carry) % prodR zl ∧
    (addRev carry zl).2 =
      if zl = [] ∨ valueR zl + carry < prodR zl then none
      else some ((valueR zl + carry) / prodR zl) := by
  induction zl generalizing carry with
  | nil =>
    refine ⟨rfl, fun p hp => absurd hp (by simp [addRev]), ?_, ?_⟩
    · simp [addRev, valueR, prodR, Nat.mod_one]
    · simp [addRev]
  | cons p rest ih =>
    obtain ⟨e, l⟩ := p
    have hel : e < l := hv (e, l) (by simp)
    have hrest : PairsValid rest := fun q hq => hv q (by simp [hq])
    have hlpos : 0 < l := by omega
    have hPr : 0 < prodR rest := prodR_pos rest hrest
    have hVr : valueR rest < prodR rest := valueR_lt_prodR rest hrest
    by_cases hlt : e + carry < l
    · simp only [addRev, if_pos hlt]
      have hbound : e + carry + l * valueR rest < l * prodR rest :=
        add_mul_lt_mul _ _ _ _ hlt hVr
      refine ⟨by simp, ?_, ?_, ?_⟩
      · intro q hq
        rcases List.mem_cons.mp hq with h | h
        · subst h; simpa using hlt
        · exact hrest q h
      · simp only [valueR, prodR]
        rw [Nat.mod_eq_of_lt (by omega)]
        omega
      · rw [if_pos]
        right
        simp only [valueR, prodR]
        omega
    · by_cases hguard : rest = [] ∧ (e + carry) / l ≠ 0
      · obtain ⟨hre, hnc⟩ := hguard
        subst hre
        simp only [addRev, if_neg hlt]
        rw [if_pos (⟨trivial, hnc⟩ : True ∧ (e + carry) / l ≠ 0)]
        refine ⟨by simp, ?_, ?_, ?_⟩
        · intro q hq
          rcases List.mem_cons.mp hq with h | h
          · subst h; simpa using Nat.mod_lt _ hlpos
          · exact absurd h (by simp)
        · simp [valueR, prodR]
        · rw [if_neg]
          · simp [valueR, prodR]
          · rintro (h | h)
            · simp at h
            · simp only [valueR, prodR, Nat.mul_one, Nat.mul_zero,
                Nat.add_zero] at h
              omega
      · simp only [addRev, if_neg hlt, if_neg hguard]
        have hre2 : rest ≠ [] := by
          intro hre
          apply hguard
          refine ⟨hre, ?_⟩
          have : 0 < (e + carry) / l := Nat.div_pos (by omega) hlpos
          omega
        obtain ⟨ihsnd, ihpv, ihval, ihov⟩ := ih ((e + carry) / l) hrest
        have hmlt : (e + carry) % l < l := Nat.mod_lt _ hlpos
        have hsplit : e + l * valueR rest + carry =
            (e + carry) % l + l * (valueR rest + (e + carry) / l) := by
          have hdm : l * ((e + carry) / l) + (e + carry) % l = e + carry :=
            Nat.div_add_mod (e + carry) l
          have hmul : l * (valueR rest + (e + carry) / l) =
              l * valueR rest + l * ((e + carry) / l) := by ring
          omega
        refine ⟨by simpa using ihsnd, ?_, ?_, ?_⟩
        · intro q hq
          rcases List.mem_cons.mp hq with h | h
          · subst h; simpa using hmlt
          · exact ihpv q h
        · simp only [valueR, prodR]
          rw [hsplit, mod_mul_decomp _ _ _ _ hmlt, ihval]
        · rw [ihov]
          simp only [prodR, valueR]
          by_cases hb : valueR rest + (e + carry) / l < prodR rest
          · rw [if_pos (Or.inr hb), if_pos]
            right
            rw [hsplit]
            exact (lt_mul_iff_of_lt _ _ _ _ hmlt).mpr hb
          · rw [if_neg, if_neg]
            · rw [hsplit, div_mul_decomp _ _ _ _ hmlt]
            · rintro (h | h)
              · exact absurd h (by simp)
              · rw [hsplit] at h
                exact hb ((lt_mul_iff_of_lt _ _ _ _ hmlt).mp h)
            · rintro (h | h)
              · exact hre2 h
              · exact hb h

theorem zip_map_fst_snd_self (out : List (Nat × Nat)) :
    (out.map Prod.fst).zip (out.map Prod.snd) = out := by
  have h := List.zip_unzip out
  rwa [List.unzip_eq_map] at h

theorem zip_reverse_eq (as bs : List Nat) (h : as.length = bs.length) :
    as.reverse.zip bs.reverse = (as.zip bs).reverse := by
  rw [List.zip_eq_zipWith, List.zip_eq_zipWith, ← List.reverse_zipWith h]

theorem map_snd_zrev (c : MixedRadixCounter)
    (hlen : c.elements.length = c.limits.length) :
    (zrev c).map Prod.snd = c.limits.reverse := by
  unfold zrev
  rw [List.map_reverse, List.map_snd_zip _ _ (le_of_eq hlen.symm)]

theorem map_fst_zrev (c : MixedRadixCounter)
    (hlen : c.elements.length = c.limits.length) :
    (zrev c).map Prod.fst = c.elements.reverse := by
  unfold zrev
  rw [List.map_reverse, List.map_fst_zip _ _ (le_of_eq hlen)]

theorem zrev_reassemble (c : MixedRadixCounter)
    (hlen : c.elements.length = c.limits.length)
    (out : List (Nat × Nat)) (hsnd : out.map Prod.snd = (zrev c).map Prod.snd) :
    zrev ⟨(out.map Prod.fst).reverse, c.limits⟩ = out := by
  have hsnd2 : out.map Prod.snd = c.limits.reverse := by
    rw [hsnd, map_snd_zrev c hlen]
  have hls : c.limits = (out.map Prod.snd).reverse := by
    rw [hsnd2, List.reverse_reverse]
  have hlen2 : (out.map Prod.fst).length = (out.map Prod.snd).length := by simp
  show ((out.map Prod.fst).reverse.zip c.limits).reverse = out
  rw [hls, zip_reverse_eq _ _ hlen2, List.reverse_reverse, zip_map_fst_snd_self]

theorem length_zrev (c : MixedRadixCounter)
    (hlen : c.elements.length = c.limits.length) :
    (zrev c).length = c.elements.length := by
  unfold zrev
  rw [List.length_reverse, List.length_zip, hlen, Nat.min_self]

theorem prodR_eq_prod (zl : List (Nat × Nat)) :
    prodR zl = (zl.map Prod.snd).prod := by
  induction zl with
  | nil => simp [prodR]
  | cons p rest ih =>
    obtain ⟨e, l⟩ := p
    simp [prodR, ih]

theorem prodR_zrev (c : MixedRadixCounter)
    (hlen : c.elements.length = c.limits.length) :
    prodR (zrev c) = c.limits.prod := by
  rw [prodR_eq_prod, map_snd_zrev c hlen, List.prod_reverse]

theorem zrev_eq_nil_iff (c : MixedRadixCounter)
    (hlen : c.elements.length = c.limits.length) :
    zrev c = [] ↔ c.elements = [] := by
  unfold zrev
  rw [List.reverse_eq_nil_iff]
  constructor
  · intro h
    have h2 := congrArg List.length h
    rw [List.length_zip, hlen, Nat.min_self] at h2
    simp only [List.length_nil] at h2
    exact List.length_eq_zero.mp (by omega)
  · intro h
    rw [h]
    rfl

theorem add_spec (c : MixedRadixCounter) (v : Nat) (hv : Valid c) :
    Valid (add c v).1 ∧
    (add c v).1.limits = c.limits ∧
    (add c v).1.elements.length = c.elements.length ∧
    cValue (add c v).1 = (cValue c + v) % c.limits.prod ∧
    (add c v).2 =
      (if c.elements = [] ∨ cValue c + v < c.limits.prod then none
       else some ((cValue c + v) / c.limits.prod)) := by
  obtain ⟨hlen, hpv⟩ := (valid_iff c).mp hv
  obtain ⟨hsnd, hpv2, hval, hov⟩ := addRev_spec (zrev c) v hpv
  have hz : zrev (add c v).1 = (addRev v (zrev c)).1 :=
    zrev_reassemble c hlen _ hsnd
  have hlim : (add c v).1.limits = c.limits := rfl
  have hlout : (addRev v (zrev c)).1.length = (zrev c).length := by
    have := congrArg List.length hsnd
    simpa using this
  have hlen2 : (add c v).1.elements.length = c.elements.length := by
    show ((addRev v (zrev c)).1.map Prod.fst).reverse.length = _
    rw [List.length_reverse, List.length_map, hlout, length_zrev c hlen]
  refine ⟨?_, hlim, hlen2, ?_, ?_⟩
  · rw [valid_iff]
    constructor
    · rw [hlim, hlen2, hlen]
    · rw [hz]
      exact hpv2
  · unfold cValue
    rw [hz, hval, prodR_zrev c hlen]
  · show (addRev v (zrev c)).2 = _
    rw [hov]
    unfold cValue
    rw [prodR_zrev c hlen]
    by_cases hnil : zrev c = []
    · rw [if_pos (Or.inl hnil),
        if_pos (Or.inl ((zrev_eq_nil_iff c hlen).mp hnil))]
    · by_cases hsmall : valueR (zrev c) + v < c.limits.prod
      · rw [if_pos (Or.inr hsmall), if_pos (Or.inr hsmall)]
      · rw [if_neg, if_neg]
        · rintro (h | h)
          · exact hnil ((zrev_eq_nil_iff c hlen).mpr h)
          · exact hsmall h
        · rintro (h | h)
          · exact hnil h
          · exact hsmall h

theorem incRev_eq_addRev_one (zl : List (Nat × Nat)) (hv : PairsValid zl)
    (hne : zl ≠ []) : incRev zl = addRev 1 zl := by
  induction zl with
  | nil => exact absurd rfl hne
  | cons p rest ih =>
    obtain ⟨e, l⟩ := p
    have hel : e < l := hv (e, l) (by simp)
    have hrest : PairsValid rest := fun q hq => hv q (by simp [hq])
    by_cases hlt : e + 1 < l
    · simp [incRev, addRev, hlt]
    · have heq : e + 1 = l := by omega
      have hmod : (e + 1) % l = 0 := by rw [heq]; exact Nat.mod_self l
      have hdiv : (e + 1) / l = 1 := by rw [heq]; exact Nat.div_self (by omega)
      cases rest with
      | nil => simp [incRev, addRev, hlt, hmod, hdiv]
      | cons q qs =>
        have hrec := ih hrest (by simp)
        simp only [incRev, addRev, if_neg hlt, hmod, hdiv, reduceCtorEq,
          false_and, if_false] at hrec ⊢
        rw [hrec]

theorem increment_eq_add_one (c : MixedRadixCounter) (hv : Valid c)
    (hne : c.elements ≠ []) : increment c = add c 1 := by
  obtain ⟨hlen, hpv⟩ := (valid_iff c).mp hv
  have hz : zrev c ≠ [] := fun h => hne ((zrev_eq_nil_iff c hlen).mp h)
  unfold increment add
  rw [incRev_eq_addRev_one (zrev c) hpv hz]

theorem cValue_lt_prod (c : MixedRadixCounter) (hv : Valid c) :
    cValue c < c.limits.prod := by
  obtain ⟨hlen, hpv⟩ := (valid_iff c).mp hv
  have := valueR_lt_prodR (zrev c) hpv
  rwa [prodR_zrev c hlen] at this

theorem inc_spec (c : MixedRadixCounter) (hv : Valid c) (hne : c.elements ≠ []) :
    Valid (increment c).1 ∧
    (increment c).1.limits = c.limits ∧
    (increment c).1.elements.length = c.elements.length ∧
    cValue (increment c).1 = (cValue c + 1) % c.limits.prod ∧
    (increment c).2 = (if cValue c + 1 < c.limits.prod then none else some 1) := by
  have he := increment_eq_add_one c hv hne
  obtain ⟨h1, h2, h3, h4, h5⟩ := add_spec c 1 hv
  rw [he]
  refine ⟨h1, h2, h3, h4, ?_⟩
  rw [h5]
  have hVlt : cValue c < c.limits.prod := cValue_lt_prod c hv
  by_cases hy : cValue c + 1 < c.limits.prod
  · rw [if_pos (Or.inr hy), if_pos hy]
  · rw [if_neg, if_neg hy]
    · have hx : cValue c + 1 = c.limits.prod := by omega
      congr 1
      rw [hx, Nat.div_self (by omega)]
    · rintro (h | h)
      · exact hne h
      · exact hy h

theorem valueR_inj : ∀ zl zl' : List (Nat × Nat), PairsValid zl → PairsValid zl' →
    zl.map Prod.snd = zl'.map Prod.snd → valueR zl = valueR zl' → zl = zl' := by
  intro zl
  induction zl with
  | nil =>
    intro zl' _ _ hsnd _
    cases zl' with
    | nil => rfl
    | cons q qs => simp at hsnd
  | cons p ps ih =>
    intro zl' hv hv' hsnd hval
    cases zl' with
    | nil => simp at hsnd
    | cons q qs =>
      obtain ⟨e, l⟩ := p
      obtain ⟨e', l'⟩ := q
      simp only [List.map_cons, List.cons.injEq] at hsnd
      obtain ⟨hl, hsnd2⟩ := hsnd
      subst hl
      have hel : e < l := hv (e, l) (by simp)
      have hel' : e' < l := hv' (e', l) (by simp)
      simp only [valueR] at hval
      have hVeq : valueR ps = valueR qs := by
        have h1 : (e + l * valueR ps) / l = valueR ps := by
          rw [Nat.add_mul_div_left _ _ (by omega), Nat.div_eq_of_lt hel,
            Nat.zero_add]
        have h2 : (e' + l * valueR qs) / l = valueR qs := by
          rw [Nat.add_mul_div_left _ _ (by omega), Nat.div_eq_of_lt hel',
            Nat.zero_add]
        rw [← h1, ← h2, hval]
      have heeq : e = e' := by
        have h1 : (e + l * valueR ps) % l = e := by
          rw [Nat.add_mul_mod_self_left, Nat.mod_eq_of_lt hel]
        have h2 : (e' + l * valueR qs) % l = e' := by
          rw [Nat.add_mul_mod_self_left, Nat.mod_eq_of_lt hel']
        rw [← h1, ← h2, hval]
      subst heeq
      rw [ih qs (fun r hr => hv r (by simp [hr]))
        (fun r hr => hv' r (by simp [hr])) hsnd2 hVeq]

theorem counter_eq_of_value (c d : MixedRadixCounter) (hc : Valid c)
    (hd : Valid d) (hlim : c.limits = d.limits) (hval : cValue c = cValue d) :
    c = d := by
  obtain ⟨hlc, hpc⟩ := (valid_iff c).mp hc
  obtain ⟨hld, hpd⟩ := (valid_iff d).mp hd
  have hsnd : (zrev c).map Prod.snd = (zrev d).map Prod.snd := by
    rw [map_snd_zrev c hlc, map_snd_zrev d hld, hlim]
  have hz : zrev c = zrev d := valueR_inj (zrev c) (zrev d) hpc hpd hsnd hval
  have hfst := congrArg (List.map Prod.fst) hz
  rw [map_fst_zrev c hlc, map_fst_zrev d hld] at hfst
  have hels : c.elements = d.elements := by
    have := congrArg List.reverse hfst
    simpa using this
  cases c
  cases d
  simp_all

theorem iterIncOv_spec (n : Nat) (c : MixedRadixCounter) (hv : Valid c)
    (hne : c.elements ≠ []) :
    Valid (iterIncOv n c).1 ∧
    (iterIncOv n c).1.limits = c.limits ∧
    (iterIncOv n c).1.elements ≠ [] ∧
    cValue (iterIncOv n c).1 = (cValue c + n) % c.limits.prod ∧
    (iterIncOv n c).2 = (cValue c + n) / c.limits.prod := by
  induction n generalizing c with
  | zero =>
    have hVlt := cValue_lt_prod c hv
    have h0 : iterIncOv 0 c = (c, 0) := rfl
    rw [h0]
    exact ⟨hv, rfl, hne, by rw [Nat.add_zero, Nat.mod_eq_of_lt hVlt],
      by rw [Nat.add_zero, Nat.div_eq_of_lt hVlt]⟩
  | succ n ih =>
    obtain ⟨v1, v2, v3, v4, v5⟩ := inc_spec c hv hne
    have hne1 : (increment c).1.elements ≠ [] := by
      intro h
      apply hne
      rw [h] at v3
      exact List.length_eq_zero.mp (by simpa using v3.symm)
    obtain ⟨i1, i2, i3, i4, i5⟩ := ih (increment c).1 v1 hne1
    have hP : (increment c).1.limits.prod = c.limits.prod := by rw [v2]
    have hVlt := cValue_lt_prod c hv
    have hppos : 0 < c.limits.prod := by omega
    simp only [iterIncOv]
    refine ⟨i1, by rw [i2, v2], i3, ?_, ?_⟩
    · rw [i4, hP, v4, Nat.mod_add_mod]
      congr 1
      omega
    · rw [i5, hP, v4, v5]
      by_cases hy : cValue c + 1 < c.limits.prod
      · rw [if_pos hy]
        simp only [ovNat]
        rw [Nat.mod_eq_of_lt hy, Nat.zero_add]
        congr 1
        omega
      · rw [if_neg hy]
        simp only [ovNat]
        have hx : cValue c + 1 = c.limits.prod := by omega
        rw [hx, Nat.mod_self, Nat.zero_add]
        have hsum : cValue c + (n + 1) = n + c.limits.prod := by omega
        rw [hsum, Nat.add_div_right _ hppos]
        omega

/-- Claim C5, amended to counters with at least one digit: on such a valid
counter, `N` `increment()` calls end in the same state as one `add(N)`, and
`add(N)` reports `Some` of the total overflow signalled across the
increments, or `None` when that total is zero.  (On the zero-digit counter
the states still agree but the overflow reports differ; see the
counterexample.) -/
theorem c5_increment_equiv_add (c : MixedRadixCounter) (n : Nat)
    (hv : Valid c) (hne : c.elements ≠ []) :
    (iterIncOv n c).1 = (add c n).1 ∧
    (add c n).2 =
      (if (iterIncOv n c).2 = 0 then none else some (iterIncOv n c).2) := by
  obtain ⟨i1, i2, i3, i4, i5⟩ := iterIncOv_spec n c hv hne
  obtain ⟨a1, a2, a3, a4, a5⟩ := add_spec c n hv
  have hVlt := cValue_lt_prod c hv
  have hppos : 0 < c.limits.prod := by omega
  constructor
  · exact counter_eq_of_value _ _ i1 a1 (by rw [i2, a2]) (by rw [i4, a4])
  · rw [a5, i5]
    by_cases hy : cValue c + n < c.limits.prod
    · rw [if_pos (Or.inr hy), if_pos (Nat.div_eq_of_lt hy)]
    · rw [if_neg, if_neg]
      · intro h
        have := Nat.div_pos (by omega : c.limits.prod ≤ cValue c + n) hppos
        omega
      · rintro (h | h)
        · exact hne h
        · exact hy h

/-- Witness for C5 at a concrete input: on the valid counter with limits
`[2, 3]` starting from `[0, 1]`, seven increments and one `add(7)` agree in
state and overflow. -/
theorem c5_increment_equiv_add_witness :
    (iterIncOv 7 ⟨[0, 1], [2, 3]⟩).1 = (add ⟨[0, 1], [2, 3]⟩ 7).1 ∧
    (add ⟨[0, 1], [2, 3]⟩ 7).2 =
      (if (iterIncOv 7 ⟨[0, 1], [2, 3]⟩).2 = 0 then none
       else some (iterIncOv 7 ⟨[0, 1], [2, 3]⟩).2) :=
  c5_increment_equiv_add ⟨[0, 1], [2, 3]⟩ 7
    (valid_mk [0, 1] [2, 3] rfl (by decide)) (by simp)

/-- Counterexample to C5 as stated: the zero-digit counter is a valid
counter (it is what `try_from_limits([])` builds), one `increment` on it
signals a total overflow of 1, yet `add(1)` returns `None` — the overflow
results of the two procedures do not match. -/
theorem c5_zero_digit_counterexample :
    Valid ⟨[], []⟩ ∧
    try_from_limits [] = .ok ⟨[], []⟩ ∧
    (iterIncOv 1 ⟨[], []⟩).1 = (add ⟨[], []⟩ 1).1 ∧
    (iterIncOv 1 ⟨[], []⟩).2 = 1 ∧
    (add ⟨[], []⟩ 1).2 = none ∧
    (iterIncOv 1 ⟨[], []⟩).2 ≠ ovNat (add ⟨[], []⟩ 1).2 := by
  refine ⟨⟨rfl, ?_⟩, rfl, rfl, rfl, rfl, by decide⟩
  intro i h1 h2
  exact absurd h1 (by simp)

theorem valueR_eq_zero (zl : List (Nat × Nat)) (h : ∀ p ∈ zl, p.1 = 0) :
    valueR zl = 0 := by
  induction zl with
  | nil => rfl
  | cons p rest ih =>
    obtain ⟨e, l⟩ := p
    have he : e = 0 := h (e, l) (by simp)
    have hrest := ih fun q hq => h q (by simp [hq])
    simp [valueR, he, hrest]

theorem cValue_zero (c : MixedRadixCounter) (hz : ∀ e ∈ c.elements, e = 0) :
    cValue c = 0 := by
  apply valueR_eq_zero
  intro p hp
  have hp2 := List.mem_reverse.mp hp
  obtain ⟨e, l⟩ := p
  exact hz e (List.of_mem_zip hp2).1

/-- Claim C6: starting a valid counter from the all-zero state, exactly
`product(limits)` increments return it to the all-zero state; the final
increment of that sequence reports `Some(1)` and every earlier increment
reports `None`. -/
theorem c6_total_capacity_wraparound (c : MixedRadixCounter) (hv : Valid c)
    (hz : ∀ e ∈ c.elements, e = 0) :
    (iterIncOv c.limits.prod c).1 = c ∧
    (increment (iterIncOv (c.limits.prod - 1) c).1).2 = some 1 ∧
    ∀ k, k + 1 < c.limits.prod → (increment (iterIncOv k c).1).2 = none := by
  by_cases hne : c.elements = []
  · have hlen := ((valid_iff c).mp hv).1
    rw [hne] at hlen
    have hlim : c.limits = [] := List.length_eq_zero.mp hlen.symm
    have hc : c = ⟨[], []⟩ := by
      cases c
      simp_all
    rw [hc]
    refine ⟨rfl, rfl, ?_⟩
    intro k hk
    simp only [List.prod_nil] at hk
    omega
  · have hV0 : cValue c = 0 := cValue_zero c hz
    have hVlt := cValue_lt_prod c hv
    have hppos : 0 < c.limits.prod := by omega
    refine ⟨?_, ?_, ?_⟩
    · obtain ⟨i1, i2, _, i4, _⟩ := iterIncOv_spec c.limits.prod c hv hne
      apply counter_eq_of_value _ _ i1 hv i2
      rw [i4, hV0, Nat.zero_add, Nat.mod_self]
    · obtain ⟨i1, i2, i3, i4, _⟩ :=
        iterIncOv_spec (c.limits.prod - 1) c hv hne
      obtain ⟨_, _, _, _, v5⟩ :=
        inc_spec (iterIncOv (c.limits.prod - 1) c).1 i1 i3
      rw [v5, i2, i4, hV0, Nat.zero_add, Nat.mod_eq_of_lt (by omega),
        if_neg (by omega)]
    · intro k hk
      obtain ⟨i1, i2, i3, i4, _⟩ := iterIncOv_spec k c hv hne
      obtain ⟨_, _, _, _, v5⟩ := inc_spec (iterIncOv k c).1 i1 i3
      rw [v5, i2, i4, hV0, Nat.zero_add, Nat.mod_eq_of_lt (by omega),
        if_pos (by omega)]

/-- Witness for C6 at a concrete input: the zero counter with limits
`[2, 2]` (capacity 4) wraps back to zero after 4 increments, the 4th
increment reports `Some(1)` and the 1st reports `None`. -/
theorem c6_total_capacity_wraparound_witness :
    (iterIncOv 4 ⟨[0, 0], [2, 2]⟩).1 = ⟨[0, 0], [2, 2]⟩ ∧
    (increment (iterIncOv 3 ⟨[0, 0], [2, 2]⟩).1).2 = some 1 ∧
    (increment (iterIncOv 0 ⟨[0, 0], [2, 2]⟩).1).2 = none :=
  ⟨(c6_total_capacity_wraparound ⟨[0, 0], [2, 2]⟩
      (valid_mk [0, 0] [2, 2] rfl (by decide)) (by decide)).1,
   (c6_total_capacity_wraparound ⟨[0, 0], [2, 2]⟩
      (valid_mk [0, 0] [2, 2] rfl (by decide)) (by decide)).2.1,
   (c6_total_capacity_wraparound ⟨[0, 0], [2, 2]⟩
      (valid_mk [0, 0] [2, 2] rfl (by decide)) (by decide)).2.2 0 (by decide)⟩

/-- Claim C4, amended to counters with at least one digit: on such a valid
counter, `add(v)` returns `Some` of the true residual quotient
`(old value + v) / product(limits)` when that quotient is non-zero and
`None` otherwise; the literal single-digit and two-digit cases of the claim
hold as stated.  (On the zero-digit counter `add` always returns `None`;
see the counterexample.) -/
theorem c4_add_overflow_quotient :
    (∀ c v, Valid c → c.elements ≠ [] →
      (add c v).2 =
        (if (cValue c + v) / c.limits.prod = 0 then none
         else some ((cValue c + v) / c.limits.prod))) ∧
    add ⟨[0], [2]⟩ 3 = (⟨[1], [2]⟩, some 1) ∧
    add ⟨[0], [2]⟩ 4 = (⟨[0], [2]⟩, some 2) ∧
    (add ⟨[0, 0], [2, 2]⟩ 9).2 = some 2 ∧
    (add ⟨[0, 0], [2, 2]⟩ 240).2 = some 60 := by
  refine ⟨?_, by decide, by decide, by decide, by decide⟩
  intro c v hv hne
  obtain ⟨_, _, _, _, a5⟩ := add_spec c v hv
  have hVlt := cValue_lt_prod c hv
  have hppos : 0 < c.limits.prod := by omega
  rw [a5]
  by_cases hy : cValue c + v < c.limits.prod
  · rw [if_pos (Or.inr hy), if_pos (Nat.div_eq_of_lt hy)]
  · rw [if_neg, if_neg]
    · intro h
      have := Nat.div_pos (by omega : c.limits.prod ≤ cValue c + v) hppos
      omega
    · rintro (h | h)
      · exact hne h
      · exact hy h

/-- Witness for C4 at a concrete input: on the valid one-digit counter with
limit `[3]`, `add(7)` reports exactly the residual quotient `7 / 3 = 2`. -/
theorem c4_add_overflow_quotient_witness :
    (add ⟨[0], [3]⟩ 7).2 =
      (if (cValue ⟨[0], [3]⟩ + 7) / (MixedRadixCounter.mk [0] [3]).limits.prod = 0
       then none
       else some ((cValue ⟨[0], [3]⟩ + 7) /
         (MixedRadixCounter.mk [0] [3]).limits.prod)) :=
  c4_add_overflow_quotient.1 ⟨[0], [3]⟩ 7
    (valid_mk [0] [3] rfl (by decide)) (by simp)

/-- Counterexample to C4 as stated: the zero-digit counter is valid (it is
what `try_from_limits([])` builds), the residual quotient of `add(1)` on it
is `(0 + 1) / 1 = 1`, which is non-zero, yet `add(1)` returns `None` instead
of `Some(1)`. -/
theorem c4_zero_digit_counterexample :
    Valid ⟨[], []⟩ ∧
    try_from_limits [] = .ok ⟨[], []⟩ ∧
    (cValue ⟨[], []⟩ + 1) / (MixedRadixCounter.mk [] []).limits.prod = 1 ∧
    (add ⟨[], []⟩ 1).2 = none := by
  refine ⟨⟨rfl, ?_⟩, rfl, rfl, rfl⟩
  intro i h1 h2
  exact absurd h1 (by simp)

theorem increment_valid (c : MixedRadixCounter) (hv : Valid c) :
    Valid (increment c).1 := by
  by_cases hne : c.elements = []
  · have hlen := ((valid_iff c).mp hv).1
    rw [hne] at hlen
    have hlim : c.limits = [] := List.length_eq_zero.mp hlen.symm
    have hc : c = ⟨[], []⟩ := by
      cases c
      simp_all
    rw [hc, show (increment (⟨[], []⟩ : MixedRadixCounter)).1 = ⟨[], []⟩ from rfl]
    exact ⟨rfl, fun i h1 h2 => absurd h1 (by simp)⟩
  · exact (inc_spec c hv hne).1

theorem applyOps_valid (ops : List Op) (c : MixedRadixCounter) (hv : Valid c) :
    Valid (applyOps ops c) := by
  induction ops generalizing c with
  | nil => exact hv
  | cons op rest ih =>
    cases op with
    | inc => exact ih _ (increment_valid c hv)
    | addv v => exact ih _ (add_spec c v hv).1

theorem tfle_valid (limits elements : List Nat) (c : MixedRadixCounter)
    (hlen : elements.length = limits.length)
    (h : try_from_limits_and_elements limits elements = .ok c) : Valid c := by
  obtain ⟨hp, hc⟩ := (tfle_ok_iff limits elements c).mp h
  rw [hc]
  exact valid_mk elements limits hlen hp

theorem tfl_valid (limits : List Nat) (c : MixedRadixCounter)
    (h : try_from_limits limits = .ok c) : Valid c :=
  tfle_valid limits _ c (by simp) h

/-- Claim C1: any counter built by a successful `try_from_limits` or
`try_from_limits_and_elements` call satisfies `0 <= elements[i] < limits[i]`
at every index after any finite sequence of `increment`/`add` calls (the
lower bound is inherent to the unsigned value domain). -/
theorem c1_invariant_preservation (limits elements : List Nat)
    (c0 : MixedRadixCounter) (ops : List Op)
    (hlen : elements.length = limits.length)
    (hc : try_from_limits_and_elements limits elements = .ok c0 ∨
      try_from_limits limits = .ok c0) :
    Valid (applyOps ops c0) := by
  rcases hc with h | h
  · exact applyOps_valid ops c0 (tfle_valid limits elements c0 hlen h)
  · exact applyOps_valid ops c0 (tfl_valid limits c0 h)

/-- Witness for C1 at a concrete input: the counter built from limits
`[2, 3]` and elements `[1, 2]` still satisfies the invariant after an
`increment`, an `add(7)` and another `increment`. -/
theorem c1_invariant_preservation_witness :
    Valid (applyOps [Op.inc, Op.addv 7, Op.inc] ⟨[1, 2], [2, 3]⟩) :=
  c1_invariant_preservation [2, 3] [1, 2] ⟨[1, 2], [2, 3]⟩
    [Op.inc, Op.addv 7, Op.inc] rfl (Or.inl rfl)

/-- Claim C7: over an 8-bit unsigned type with wrapping arithmetic there is
a valid, representable counter and input on which the intermediate sum
`elements[i] + carry` inside `add` exceeds `T::MAX = 255`, and the wrapped
run then produces different digits and a different overflow than the exact
divmod algorithm: digits `[254]` with limit `[255]` and `add(255)` give
`254 + 255 = 509 > 255`; exact arithmetic yields digits `[254]` and
`Some(1)`, the wrapped run yields digits `[253]` and `None`. -/
theorem c7_add_wrapping_deviation :
    Valid ⟨[254], [255]⟩ ∧
    (∀ x ∈ (MixedRadixCounter.mk [254] [255]).elements, x ≤ 2 ^ 8 - 1) ∧
    (∀ x ∈ (MixedRadixCounter.mk [254] [255]).limits, x ≤ 2 ^ 8 - 1) ∧
    2 ^ 8 - 1 < 254 + 255 ∧
    addW 8 ⟨[254], [255]⟩ 255 = (⟨[253], [255]⟩, none) ∧
    add ⟨[254], [255]⟩ 255 = (⟨[254], [255]⟩, some 1) ∧
    addW 8 ⟨[254], [255]⟩ 255 ≠ add ⟨[254], [255]⟩ 255 :=
  ⟨valid_mk [254] [255] rfl (by decide), by decide, by decide, by decide,
    by decide, by decide, by decide⟩

/-- Claim C8: on the zero-digit counter, `increment` immediately reports
overflow `Some(1)` and leaves the (empty) state unchanged, while `add(v)`
returns `None` for every `v`, silently discarding the added amount. -/
theorem c8_zero_digit_behavior :
    increment ⟨[], []⟩ = (⟨[], []⟩, some 1) ∧
    ∀ v, add ⟨[], []⟩ v = (⟨[], []⟩, none) := by
  exact ⟨rfl, fun v => rfl⟩

theorem incRevW_eq_incRev (w : Nat) (zl : List (Nat × Nat))
    (h : ∀ p ∈ zl, p.1 + 1 < 2 ^ w) :
    incRevW w zl = incRev zl := by
  induction zl with
  | nil => rfl
  | cons p rest ih =>
    obtain ⟨e, l⟩ := p
    have he : e + 1 < 2 ^ w := h (e, l) (by simp)
    have hmod : (e + 1) % 2 ^ w = e + 1 := Nat.mod_eq_of_lt he
    have hrec := ih fun q hq => h q (by simp [hq])
    simp only [incRevW, incRev, hmod, hrec]

/-- Claim C9: on a valid counter whose limits are representable in a `w`-bit
unsigned type (`limits[i] <= T::MAX = 2 ^ w - 1`), every sum
`elements[i] + 1` computed by `increment` stays representable — running
`increment` with wrapping `w`-bit addition gives exactly the result of exact
arithmetic. -/
theorem c9_increment_no_overflow (w : Nat) (c : MixedRadixCounter)
    (hv : Valid c) (hl : ∀ l ∈ c.limits, l ≤ 2 ^ w - 1) :
    incrementW w c = increment c := by
  obtain ⟨hlen, hpv⟩ := (valid_iff c).mp hv
  have hkey : ∀ p ∈ zrev c, p.1 + 1 < 2 ^ w := by
    intro p hp
    obtain ⟨e, l⟩ := p
    have hmem := List.mem_reverse.mp hp
    have hel : e < l := hpv (e, l) hp
    have hll : l ≤ 2 ^ w - 1 := hl l (List.of_mem_zip hmem).2
    have hpow : 0 < 2 ^ w := pow_pos (by omega) w
    omega
  unfold incrementW increment
  rw [incRevW_eq_incRev w (zrev c) hkey]

/-- Witness for C9 at a concrete input: `w = 8`, digits `[254]`, limits
`[255]` — the wrapped and exact increments agree. -/
theorem c9_increment_no_overflow_witness :
    incrementW 8 ⟨[254], [255]⟩ = increment ⟨[254], [255]⟩ :=
  c9_increment_no_overflow 8 ⟨[254], [255]⟩
    (valid_mk [254] [255] rfl (by decide)) (by decide)

theorem cmpList_eq_iff (as bs : List Nat) : cmpList as bs = .eq ↔ as = bs := by
  induction as generalizing bs with
  | nil =>
    cases bs with
    | nil => simp [cmpList]
    | cons b bs =>
      constructor
      · intro h
        exact absurd h (by simp [cmpList])
      · intro h
        exact absurd h (by simp)
  | cons a as ih =>
    cases bs with
    | nil =>
      constructor
      · intro h
        exact absurd h (by simp [cmpList])
      · intro h
        exact absurd h (by simp)
    | cons b bs =>
      rcases Nat.lt_trichotomy a b with hab | hab | hab
      · have hc : compare a b = .lt := Nat.compare_eq_lt.mpr hab
        have hstep : cmpList (a :: as) (b :: bs) = .lt := by simp [cmpList, hc]
        rw [hstep]
        constructor
        · intro h
          exact absurd h (by decide)
        · intro h
          injection h with h1 h2
          omega
      · subst hab
        have hc : compare a a = .eq := Nat.compare_eq_eq.mpr rfl
        have hstep : cmpList (a :: as) (a :: bs) = cmpList as bs := by
          simp [cmpList, hc]
        rw [hstep, ih bs]
        constructor
        · intro h
          rw [h]
        · intro h
          exact congrArg List.tail h
      · have hc : compare a b = .gt := Nat.compare_eq_gt.mpr hab
        have hstep : cmpList (a :: as) (b :: bs) = .gt := by simp [cmpList, hc]
        rw [hstep]
        constructor
        · intro h
          exact absurd h (by decide)
        · intro h
          injection h with h1 h2
          omega

theorem cmpList_lt_iff (as bs : List Nat) :
    cmpList as bs = .lt ↔ List.Lex (· < ·) as bs := by
  induction as generalizing bs with
  | nil =>
    cases bs with
    | nil =>
      constructor
      · intro h
        exact absurd h (by simp [cmpList])
      · intro h
        exact absurd h (by simp)
    | cons b bs =>
      constructor
      · intro _
        exact List.Lex.nil
      · intro _
        rfl
  | cons a as ih =>
    cases bs with
    | nil =>
      constructor
      · intro h
        exact absurd h (by simp [cmpList])
      · intro h
        exact absurd h (by simp)
    | cons b bs =>
      rcases Nat.lt_trichotomy a b with hab | hab | hab
      · have hc : compare a b = .lt := Nat.compare_eq_lt.mpr hab
        have hstep : cmpList (a :: as) (b :: bs) = .lt := by simp [cmpList, hc]
        rw [hstep]
        constructor
        · intro _
          exact List.Lex.rel hab
        · intro _
          rfl
      · subst hab
        have hc : compare a a = .eq := Nat.compare_eq_eq.mpr rfl
        have hstep : cmpList (a :: as) (a :: bs) = cmpList as bs := by
          simp [cmpList, hc]
        rw [hstep, ih bs]
        constructor
        · exact List.Lex.cons
        · intro h
          cases h with
          | cons h2 => exact h2
          | rel h2 => omega
      · have hc : compare a b = .gt := Nat.compare_eq_gt.mpr hab
        have hstep : cmpList (a :: as) (b :: bs) = .gt := by simp [cmpList, hc]
        rw [hstep]
        constructor
        · intro h
          exact absurd h (by decide)
        · intro h
          cases h with
          | cons h2 => omega
          | rel h2 => omega

/-- Claim C10: the derived comparison of two counters declares them equal
exactly when both the `elements` and the `limits` lists agree, and declares
`c < d` exactly by the lexicographic comparison of the pairs
`(elements, limits)` with the `elements` field compared first (each list
itself compared lexicographically). -/
theorem c10_equality_and_ordering (c d : MixedRadixCounter) :
    (counterCompare c d = .eq ↔
      c.elements = d.elements ∧ c.limits = d.limits) ∧
    (counterCompare c d = .lt ↔
      (List.Lex (· < ·) c.elements d.elements ∨
        (c.elements = d.elements ∧ List.Lex (· < ·) c.limits d.limits))) := by
  have hel := cmpList_eq_iff c.elements d.elements
  have hll := cmpList_eq_iff c.limits d.limits
  have hel2 := cmpList_lt_iff c.elements d.elements
  have hll2 := cmpList_lt_iff c.limits d.limits
  cases he : cmpList c.elements d.elements with
  | lt =>
    have hstep : counterCompare c d = .lt := by simp [counterCompare, he]
    rw [hstep]
    constructor
    · constructor
      · intro h
        exact absurd h (by decide)
      · rintro ⟨h1, h2⟩
        exact absurd (hel.mpr h1) (by rw [he]; decide)
    · constructor
      · intro _
        left
        exact hel2.mp he
      · intro _
        rfl
  | eq =>
    have hstep : counterCompare c d = cmpList c.limits d.limits := by
      simp [counterCompare, he]
    rw [hstep]
    have heq : c.elements = d.elements := hel.mp he
    constructor
    · constructor
      · intro h
        exact ⟨heq, hll.mp h⟩
      · rintro ⟨_, h2⟩
        exact hll.mpr h2
    · constructor
      · intro h
        right
        exact ⟨heq, hll2.mp h⟩
      · rintro (h | ⟨_, h⟩)
        · exact absurd (hel2.mpr h) (by rw [he]; decide)
        · exact hll2.mpr h
  | gt =>
    have hstep : counterCompare c d = .gt := by simp [counterCompare, he]
    rw [hstep]
    constructor
    · constructor
      · intro h
        exact absurd h (by decide)
      · rintro ⟨h1, _⟩
        exact absurd (hel.mpr h1) (by rw [he]; decide)
    · constructor
      · intro h
        exact absurd h (by decide)
      · rintro (h | ⟨h1, h2⟩)
        · exact absurd (hel2.mpr h) (by rw [he]; decide)
        · exact absurd (hel.mpr h1) (by rw [he]; decide)

end MixedRadix
